import Mathlib

set_option maxRecDepth 200000

/-!
Formal model of `Sequential_Search.ipynb` (bad-science-matrix exhaustive search).

The notebook works with `float32` tensors; this development models the numeric
content in exact arithmetic.  Candidate rows are integer subset-sums of sign
vectors; the notebook normalizes each such row `v` to `v / ‖v‖`.  We keep the
integer vector `v` as the exact representative of the normalized row and
interpret it into `ℝ` with `interpRow` (division by `Real.sqrt`).  Exact
equality of two normalized rows (the dedup criterion used by `torch.unique`)
is equivalent to the decidable predicate `sameRayB` on the representatives;
the bridge lemma `interpRow_eq_iff_sameRayB` below proves this equivalence, so
the executable integer pipeline computes exactly the row set the source
computes (idealizing float rounding as real arithmetic).
-/

namespace BadScience

/-- Concatenation of the lists produced by `f` over a list of scalars
(the list-comprehension shape of `itertools.product`). -/
def concatMap (f : ℤ → List (List ℤ)) : List ℤ → List (List ℤ)
  | [] => []
  | a :: as => f a ++ concatMap f as

/-- `itertools.product(alphabet, repeat=k)`: all length-`k` tuples over the
alphabet, in lexicographic order (first coordinate varies slowest). -/
def prodRepeat (alphabet : List ℤ) : ℕ → List (List ℤ)
  | 0 => [[]]
  | k + 1 => concatMap (fun a => (prodRepeat alphabet k).map (fun v => a :: v)) alphabet

/-- `vectors(n)` of the source: all `±1` sign vectors of length `n`
(columns of the returned tensor; we keep the list of vectors). -/
def signVectors (n : ℕ) : List (List ℤ) := prodRepeat [-1, 1] n

/-- `vectors(k, binary=True)` of the source: all `0/1` selector vectors of
length `k`. -/
def binaryVectors (k : ℕ) : List (List ℤ) := prodRepeat [0, 1] k

/-- `binary_vectors = vectors(n)[:, :2**(n-1)]`: the first `2^(n-1)` sign
vectors, used as the evaluation half-set for `beta`. -/
def evalVectors (n : ℕ) : List (List ℤ) := (signVectors n).take (2 ^ (n - 1))

/-- Dot product of two coordinate lists (trailing coordinates of the longer
list are ignored; all vectors in the model have equal lengths). -/
def dotF {α : Type} [CommRing α] (v w : List α) : α :=
  (List.zipWith (· * ·) v w).sum

/-- Squared euclidean norm of an integer row (`torch.norm(...)^2`, exactly). -/
def sqNorm (v : List ℤ) : ℤ := dotF v v

/-- Coordinatewise sum of two rows. -/
def vecAdd (v w : List ℤ) : List ℤ := List.zipWith (· + ·) v w

/-- Coordinatewise negation of a row. -/
def negRow {α : Type} [Neg α] (v : List α) : List α := v.map (fun x => -x)

/-- Coordinatewise difference of two rows (used in the bridge proof). -/
def vecSub (v w : List ℤ) : List ℤ := List.zipWith (· - ·) v w

/-- An integer row viewed as a real row. -/
noncomputable def castRow (v : List ℤ) : List ℝ := v.map (fun x : ℤ => (x : ℝ))

/-- `selector @ signVectorMatrix`: the sum of the sign vectors selected by the
`0/1` coefficients `cs` (one row of `torch.matmul(binary_choices, vectors(n).T)`). -/
def linComb (n : ℕ) : List ℤ → List (List ℤ) → List ℤ
  | c :: cs, v :: vs => vecAdd (v.map (fun x => c * x)) (linComb n cs vs)
  | _, _ => List.replicate n 0

/-- The `2^(2^n)` unnormalized candidate rows, one per subset selector
(`rows = torch.matmul(binary_choices, vectors(n).T)`). -/
def rawRows (n : ℕ) : List (List ℤ) :=
  (binaryVectors (2 ^ n)).map (fun sel => linComb n sel (signVectors n))

/-- The rows surviving the NaN filter.  In `float32`, normalizing a row of
norm `0` produces a row of NaNs and only such rows are all-NaN, so the filter
`~torch.all(isnan)` keeps exactly the rows of nonzero norm. -/
def keptRows (n : ℕ) : List (List ℤ) :=
  (rawRows n).filter (fun v => decide (sqNorm v ≠ 0))

/-- Decides whether two (nonzero) integer representatives normalize to the
same unit row, i.e. whether they are positive scalar multiples of each other:
`v/‖v‖ = w/‖w‖  ↔  v·w > 0 ∧ (v·w)² = ‖v‖²·‖w‖²`.
This is the exact-arithmetic meaning of row equality in `torch.unique`,
justified by the bridge lemma `interpRow_eq_iff_sameRayB`. -/
def sameRayB (v w : List ℤ) : Bool :=
  decide (0 < dotF v w) && decide (dotF v w * dotF v w = sqNorm v * sqNorm w)

/-- Accumulator pass of `dedupBy`: keeps the first representative of each
equivalence class (`acc` holds the kept rows in reverse). -/
def dedupByAux (eqv : List ℤ → List ℤ → Bool) : List (List ℤ) → List (List ℤ) → List (List ℤ)
  | acc, [] => acc.reverse
  | acc, v :: rest =>
    if acc.any (fun w => eqv w v) then dedupByAux eqv acc rest
    else dedupByAux eqv (v :: acc) rest

/-- Row deduplication (`torch.unique(..., dim=0)`), parameterized by the row
equality test.  `torch.unique` additionally sorts the surviving rows; no
property below depends on the order of `R`, so we keep first-occurrence order. -/
def dedupBy (eqv : List ℤ → List ℤ → Bool) (l : List (List ℤ)) : List (List ℤ) :=
  dedupByAux eqv [] l

/-- `unique_normalized_rows`: the kept rows, deduplicated as normalized rows. -/
def uniqueRows (n : ℕ) : List (List ℤ) := dedupBy sameRayB (keptRows n)

/-- Value of the first nonzero coordinate of a row:
`row[(row != 0).nonzero(as_tuple=True)[0][0]]` of the source, which raises
(`none` here) on an all-zero row. -/
def firstNonzero : List ℤ → Option ℤ
  | [] => none
  | x :: xs => if x = 0 then firstNonzero xs else some x

/-- The per-row body of `fix_row_signs`: multiply the row by the sign of its
first nonzero coordinate; fails (as the source's indexing does) when the row
is all zero. -/
def fixRowSign (v : List ℤ) : Option (List ℤ) :=
  (firstNonzero v).map (fun x => v.map (fun y => x.sign * y))

/-- Sequencing of an option-valued map over a list (the loop of
`fix_row_signs` propagating the possible indexing failure). -/
def mapOption (f : List ℤ → Option (List ℤ)) : List (List ℤ) → Option (List (List ℤ))
  | [] => some []
  | v :: vs =>
    match f v, mapOption f vs with
    | some w, some ws => some (w :: ws)
    | _, _ => none

/-- `fix_row_signs`: sign-canonicalize every row, then deduplicate
(`torch.unique`) again. -/
def fix_row_signs (l : List (List ℤ)) : Option (List (List ℤ)) :=
  (mapOption fixRowSign l).map (dedupBy sameRayB)

/-- `candidate_rows(n)`, on integer representatives of the normalized rows. -/
def candidate_rows (n : ℕ) : Option (List (List ℤ)) :=
  fix_row_signs (uniqueRows n)

/-- The integer representatives of the candidate row set `R` (empty if the
pipeline failed; it never does, see the claim about `fix_row_signs`). -/
def candidateReprs (n : ℕ) : List (List ℤ) := (candidate_rows n).getD []

/-- Interpretation of an integer representative as the real normalized row
`v / ‖v‖` the source stores. -/
noncomputable def interpRow (v : List ℤ) : List ℝ :=
  v.map (fun x : ℤ => (x : ℝ) / Real.sqrt ((sqNorm v : ℝ)))

/-- The candidate row set `R` as the list of real unit rows. -/
noncomputable def candidateRowsR (n : ℕ) : List (List ℝ) :=
  (candidateReprs n).map interpRow

/-- The evaluation half-set as real columns (float tensor `binary_vectors`). -/
noncomputable def evalVectorsR (n : ℕ) : List (List ℝ) :=
  (evalVectors n).map (fun v => v.map (fun x : ℤ => (x : ℝ)))

/-- First-nonzero-coordinate-positive predicate on integer rows
(all-zero rows have no first nonzero coordinate and do not satisfy it). -/
def firstNonzeroPosZ : List ℤ → Prop
  | [] => False
  | x :: xs => 0 < x ∨ (x = 0 ∧ firstNonzeroPosZ xs)

/-- First-nonzero-coordinate-positive predicate on real rows. -/
def firstNonzeroPosR : List ℝ → Prop
  | [] => False
  | x :: xs => 0 < x ∨ (x = 0 ∧ firstNonzeroPosR xs)

/-- `itertools.combinations(l, r)`: all `r`-element subsequences of `l`, in
lexicographic order of positions. -/
def combinations {α : Type} : ℕ → List α → List (List α)
  | 0, _ => [[]]
  | _ + 1, [] => []
  | r + 1, x :: xs => (combinations r xs).map (fun c => x :: c) ++ combinations (r + 1) xs

/-- `rows[torch.tensor(combination)]`: the matrix induced by an index tuple. -/
def selectRows {α : Type} (rows : List (List α)) (c : List ℕ) : List (List α) :=
  c.map (fun i => rows.getD i [])

/-- Per-column inner maximum of `beta`:
`torch.max(torch.abs(A @ binary_vectors), dim=0)` at one evaluation column.
The folded values are absolute values, so the `0` seed is inert for the
nonempty matrices (`r ≥ 1`) the source evaluates. -/
def colMax {α : Type} [LinearOrderedField α] (A : List (List α)) (c : List α) : α :=
  (A.map (fun row => |dotF row c|)).foldl max 0

/-- `beta(A, binary_vectors)`: mean over evaluation columns of the maximal
absolute inner product with a row of `A`. -/
def beta {α : Type} [LinearOrderedField α] (A bvs : List (List α)) : α :=
  (bvs.map (colMax A)).sum / (bvs.length : α)

/-- The beta value the loop computes for one index combination. -/
def betaOf {α : Type} [LinearOrderedField α] (rows bvs : List (List α)) (c : List ℕ) : α :=
  beta (selectRows rows c) bvs

/-- Generic body of the running-maximum loop: update the state only on a
strictly greater value (`if beta_candidate > beta_max`). -/
def argStep {α β γ : Type} [LinearOrder α] (f : β → α) (g : β → γ)
    (st : α × Option γ) (c : β) : α × Option γ :=
  if st.1 < f c then (f c, some (g c)) else st

/-- One iteration of the search loop: build `A`, evaluate `beta`, update
`(beta_max, best_A)` on strict improvement. -/
def searchStep {α : Type} [LinearOrderedField α] (rows bvs : List (List α))
    (st : α × Option (List (List α))) (c : List ℕ) : α × Option (List (List α)) :=
  if st.1 < betaOf rows bvs c then (betaOf rows bvs c, some (selectRows rows c)) else st

/-- The sequential search: fold the strict-improvement update over all
`r`-combinations of row indices, starting from `beta_max = 0`, `best_A = None`. -/
def searchLoop {α : Type} [LinearOrderedField α] (rows bvs : List (List α)) (r : ℕ) :
    α × Option (List (List α)) :=
  (combinations r (List.range rows.length)).foldl (searchStep rows bvs) (0, none)

/-- The specified value of `beta_max`: the fold of `max` over all candidate
beta values, seeded with the initial value `0`. -/
def betaMaxSpec {α : Type} [LinearOrderedField α] (rows bvs : List (List α)) (r : ℕ) : α :=
  ((combinations r (List.range rows.length)).map (betaOf rows bvs)).foldl max 0

/-- The whole program at parameters `(n, r)`: generate `R`, then search. -/
noncomputable def runSearch (n r : ℕ) : ℝ × Option (List (List ℝ)) :=
  searchLoop (candidateRowsR n) (evalVectorsR n) r

/-! ### Algebra of integer rows -/

theorem dotF_nil_right {α : Type} [CommRing α] (v : List α) : dotF v [] = 0 := by
  cases v <;> rfl

theorem dotF_cons {α : Type} [CommRing α] (x : α) (v : List α) (y : α) (w : List α) :
    dotF (x :: v) (y :: w) = x * y + dotF v w := rfl

theorem dotF_comm {α : Type} [CommRing α] (v w : List α) : dotF v w = dotF w v := by
  induction v generalizing w with
  | nil => cases w <;> simp [dotF, List.zipWith]
  | cons x v ih =>
    cases w with
    | nil => simp [dotF, List.zipWith]
    | cons y w => simp only [dotF_cons, ih, mul_comm]

theorem dotF_map_mul_left {α : Type} [CommRing α] (c : α) (v w : List α) :
    dotF (v.map (fun x => c * x)) w = c * dotF v w := by
  induction v generalizing w with
  | nil => simp [dotF]
  | cons x v ih =>
    cases w with
    | nil => simp [dotF_nil_right]
    | cons y w => simp only [List.map_cons, dotF_cons, ih]; ring

theorem dotF_map_mul_right {α : Type} [CommRing α] (c : α) (v w : List α) :
    dotF v (w.map (fun x => c * x)) = c * dotF v w := by
  rw [dotF_comm, dotF_map_mul_left, dotF_comm]

theorem sqNorm_cons (x : ℤ) (v : List ℤ) : sqNorm (x :: v) = x * x + sqNorm v := rfl

theorem sqNorm_nonneg (v : List ℤ) : 0 ≤ sqNorm v := by
  induction v with
  | nil => exact le_refl 0
  | cons x v ih => exact add_nonneg (mul_self_nonneg x) ih

theorem sqNorm_eq_zero_iff (v : List ℤ) : sqNorm v = 0 ↔ ∀ x ∈ v, x = 0 := by
  induction v with
  | nil => simp [sqNorm, dotF]
  | cons x v ih =>
    rw [sqNorm_cons]
    constructor
    · intro h y hy
      have hx2 : x * x = 0 ∧ sqNorm v = 0 :=
        (add_eq_zero_iff_of_nonneg (mul_self_nonneg x) (sqNorm_nonneg v)).mp h
      rcases List.mem_cons.mp hy with hyx | hyv
      · exact hyx ▸ mul_self_eq_zero.mp hx2.1
      · exact (ih.mp hx2.2) y hyv
    · intro h
      have hx : x = 0 := h x (List.mem_cons_self x v)
      have hv : sqNorm v = 0 := ih.mpr (fun y hy => h y (List.mem_cons_of_mem x hy))
      rw [hx, hv]; ring

theorem sqNorm_ne_zero_iff (v : List ℤ) : sqNorm v ≠ 0 ↔ ∃ x ∈ v, x ≠ 0 := by
  rw [Ne, sqNorm_eq_zero_iff]
  push_neg
  rfl

theorem dotF_vecSub_left (v w z : List ℤ) (h : v.length = w.length) :
    dotF (vecSub v w) z = dotF v z - dotF w z := by
  induction v generalizing w z with
  | nil =>
    cases w with
    | nil => simp [vecSub, dotF]
    | cons y w => exact absurd h (by simp)
  | cons x v ih =>
    cases w with
    | nil => exact absurd h (by simp)
    | cons y w =>
      cases z with
      | nil => simp [dotF_nil_right]
      | cons z0 z =>
        have h' : v.length = w.length := by simpa using h
        show (x - y) * z0 + dotF (vecSub v w) z = _
        rw [ih w z h', dotF_cons, dotF_cons]
        ring

theorem vecSub_length (v w : List ℤ) : (vecSub v w).length = min v.length w.length := by
  simp [vecSub]

theorem vecSub_eq_zero (v w : List ℤ) (h : v.length = w.length)
    (hz : ∀ x ∈ vecSub v w, x = 0) : v = w := by
  induction v generalizing w with
  | nil =>
    cases w with
    | nil => rfl
    | cons y w => exact absurd h (by simp)
  | cons x v ih =>
    cases w with
    | nil => exact absurd h (by simp)
    | cons y w =>
      have hx : x - y = 0 := hz (x - y) (List.mem_cons_self _ _)
      have h' : v.length = w.length := by simpa using h
      have hv : v = w := ih w h' (fun z hzz => hz z (List.mem_cons_of_mem _ hzz))
      rw [sub_eq_zero] at hx
      rw [hx, hv]

theorem sqNorm_map_mul (s : ℤ) (v : List ℤ) :
    sqNorm (v.map (fun x => s * x)) = s * s * sqNorm v := by
  unfold sqNorm
  rw [dotF_map_mul_left, dotF_map_mul_right]
  ring

theorem sqNorm_negRow (v : List ℤ) : sqNorm (negRow v) = sqNorm v := by
  have h : negRow v = v.map (fun x => (-1) * x) := by
    simp [negRow]
  rw [h, sqNorm_map_mul]
  ring

theorem dotF_castRow (v w : List ℤ) :
    dotF (castRow v) (castRow w) = ((dotF v w : ℤ) : ℝ) := by
  induction v generalizing w with
  | nil => simp [castRow, dotF]
  | cons x v ih =>
    cases w with
    | nil => simp [castRow, dotF_nil_right]
    | cons y w =>
      show (x : ℝ) * (y : ℝ) + dotF (castRow v) (castRow w) = _
      rw [ih, dotF_cons]
      push_cast
      ring

/-! ### Enumerators -/

theorem mem_concatMap (f : ℤ → List (List ℤ)) (l : List ℤ) (x : List ℤ) :
    x ∈ concatMap f l ↔ ∃ a ∈ l, x ∈ f a := by
  induction l with
  | nil => simp [concatMap]
  | cons a as ih => simp [concatMap, ih]

theorem mem_prodRepeat (alphabet : List ℤ) (k : ℕ) (v : List ℤ) :
    v ∈ prodRepeat alphabet k ↔ v.length = k ∧ ∀ x ∈ v, x ∈ alphabet := by
  induction k generalizing v with
  | zero =>
    simp only [prodRepeat, List.mem_singleton]
    constructor
    · rintro rfl; simp
    · rintro ⟨h, -⟩; exact List.length_eq_zero.mp h
  | succ k ih =>
    simp only [prodRepeat, mem_concatMap, List.mem_map]
    constructor
    · rintro ⟨a, ha, w, hw, rfl⟩
      rcases (ih w).mp hw with ⟨hlen, hmem⟩
      refine ⟨by simp [hlen], ?_⟩
      intro x hx
      rcases List.mem_cons.mp hx with rfl | hx
      · exact ha
      · exact hmem x hx
    · rintro ⟨hlen, hmem⟩
      cases v with
      | nil => simp at hlen
      | cons a w =>
        refine ⟨a, hmem a (List.mem_cons_self a w), w, ?_, rfl⟩
        exact (ih w).mpr ⟨by simpa using hlen, fun x hx => hmem x (List.mem_cons_of_mem a hx)⟩

theorem length_concatMap (f : ℤ → List (List ℤ)) (l : List ℤ) :
    (concatMap f l).length = (l.map (fun a => (f a).length)).sum := by
  induction l with
  | nil => simp [concatMap]
  | cons a as ih => simp [concatMap, ih]

theorem length_prodRepeat (alphabet : List ℤ) (k : ℕ) :
    (prodRepeat alphabet k).length = alphabet.length ^ k := by
  induction k with
  | zero => simp [prodRepeat]
  | succ k ih =>
    rw [prodRepeat, length_concatMap]
    have : alphabet.map (fun a => ((prodRepeat alphabet k).map (fun v => a :: v)).length)
        = alphabet.map (fun _ => alphabet.length ^ k) := by
      simp [ih]
    rw [this, List.map_const', List.sum_replicate, smul_eq_mul, pow_succ]
    ring

theorem length_signVectors (n : ℕ) : (signVectors n).length = 2 ^ n := by
  rw [signVectors, length_prodRepeat]; norm_num

theorem mem_signVectors (n : ℕ) (v : List ℤ) :
    v ∈ signVectors n ↔ v.length = n ∧ ∀ x ∈ v, x = -1 ∨ x = 1 := by
  rw [signVectors, mem_prodRepeat]
  simp

/-! ### Deduplication and option plumbing -/

theorem dedupByAux_mem (eqv : List ℤ → List ℤ → Bool) (l : List (List ℤ)) :
    ∀ acc x, x ∈ dedupByAux eqv acc l → x ∈ acc ∨ x ∈ l := by
  induction l with
  | nil =>
    intro acc x hx
    rw [dedupByAux, List.mem_reverse] at hx
    exact Or.inl hx
  | cons v rest ih =>
    intro acc x hx
    rw [dedupByAux] at hx
    by_cases hc : acc.any (fun w => eqv w v) = true
    · rw [if_pos hc] at hx
      rcases ih acc x hx with h | h
      · exact Or.inl h
      · exact Or.inr (List.mem_cons_of_mem v h)
    · rw [if_neg hc] at hx
      rcases ih (v :: acc) x hx with h | h
      · rcases List.mem_cons.mp h with rfl | h
        · exact Or.inr (List.mem_cons_self x rest)
        · exact Or.inl h
      · exact Or.inr (List.mem_cons_of_mem v h)

theorem mem_of_mem_dedupBy (eqv : List ℤ → List ℤ → Bool) (l : List (List ℤ)) (x : List ℤ)
    (hx : x ∈ dedupBy eqv l) : x ∈ l := by
  rcases dedupByAux_mem eqv l [] x hx with h | h
  · simp at h
  · exact h

theorem dedupByAux_pairwise (eqv : List ℤ → List ℤ → Bool) (l : List (List ℤ)) :
    ∀ acc, acc.reverse.Pairwise (fun a b => eqv a b = false) →
      (dedupByAux eqv acc l).Pairwise (fun a b => eqv a b = false) := by
  induction l with
  | nil => intro acc h; rw [dedupByAux]; exact h
  | cons v rest ih =>
    intro acc h
    rw [dedupByAux]
    by_cases hc : acc.any (fun w => eqv w v) = true
    · rw [if_pos hc]; exact ih acc h
    · rw [if_neg hc]
      refine ih (v :: acc) ?_
      rw [List.reverse_cons, List.pairwise_append]
      refine ⟨h, List.pairwise_singleton _ v, ?_⟩
      intro a ha b hb
      rw [List.mem_singleton] at hb
      subst hb
      rw [List.mem_reverse] at ha
      rw [Bool.not_eq_true, List.any_eq_false] at hc
      exact Bool.eq_false_iff.mpr (hc a ha)

theorem dedupBy_pairwise (eqv : List ℤ → List ℤ → Bool) (l : List (List ℤ)) :
    (dedupBy eqv l).Pairwise (fun a b => eqv a b = false) :=
  dedupByAux_pairwise eqv l [] (by simp)

theorem mapOption_isSome (f : List ℤ → Option (List ℤ)) (l : List (List ℤ))
    (h : ∀ v ∈ l, (f v).isSome = true) : ∃ l', mapOption f l = some l' := by
  induction l with
  | nil => exact ⟨[], rfl⟩
  | cons v vs ih =>
    rcases Option.isSome_iff_exists.mp (h v (List.mem_cons_self v vs)) with ⟨w, hw⟩
    rcases ih (fun u hu => h u (List.mem_cons_of_mem v hu)) with ⟨ws, hws⟩
    exact ⟨w :: ws, by rw [mapOption, hw, hws]⟩

theorem mapOption_mem (f : List ℤ → Option (List ℤ)) (l : List (List ℤ)) :
    ∀ l', mapOption f l = some l' → ∀ w ∈ l', ∃ v ∈ l, f v = some w := by
  induction l with
  | nil =>
    intro l' hl' w hw
    rw [mapOption] at hl'
    cases hl'
    simp at hw
  | cons v vs ih =>
    intro l' hl' w hw
    rw [mapOption] at hl'
    cases hfv : f v with
    | none => rw [hfv] at hl'; cases hl'
    | some u =>
      cases hrec : mapOption f vs with
      | none => rw [hfv, hrec] at hl'; cases hl'
      | some us =>
        rw [hfv, hrec] at hl'
        cases hl'
        rcases List.mem_cons.mp hw with rfl | hw
        · exact ⟨v, List.mem_cons_self v vs, hfv⟩
        · rcases ih us hrec w hw with ⟨v', hv', hfv'⟩
          exact ⟨v', List.mem_cons_of_mem v hv', hfv'⟩

/-! ### The sign fix -/

theorem firstNonzero_isSome_iff (v : List ℤ) :
    (firstNonzero v).isSome = true ↔ ∃ x ∈ v, x ≠ 0 := by
  induction v with
  | nil => simp [firstNonzero]
  | cons x xs ih =>
    rw [firstNonzero]
    by_cases hx : x = 0
    · rw [if_pos hx, ih]
      subst hx
      constructor
      · rintro ⟨y, hy, hy0⟩; exact ⟨y, List.mem_cons_of_mem 0 hy, hy0⟩
      · rintro ⟨y, hy, hy0⟩
        rcases List.mem_cons.mp hy with rfl | hy
        · exact absurd rfl hy0
        · exact ⟨y, hy, hy0⟩
    · rw [if_neg hx]
      simp only [Option.isSome_some, true_iff]
      exact ⟨x, List.mem_cons_self x xs, hx⟩

theorem firstNonzero_some_ne (v : List ℤ) (x : ℤ) (h : firstNonzero v = some x) : x ≠ 0 := by
  induction v with
  | nil => cases h
  | cons y ys ih =>
    rw [firstNonzero] at h
    by_cases hy : y = 0
    · rw [if_pos hy] at h; exact ih h
    · rw [if_neg hy] at h
      cases h
      exact hy

theorem fixRowSign_isSome_iff (v : List ℤ) :
    (fixRowSign v).isSome = true ↔ ∃ x ∈ v, x ≠ 0 := by
  rw [fixRowSign, Option.isSome_map']
  exact firstNonzero_isSome_iff v

theorem firstNonzero_canonical (v : List ℤ) (x : ℤ) (h : firstNonzero v = some x) :
    firstNonzeroPosZ (v.map (fun y => x.sign * y)) := by
  induction v with
  | nil => cases h
  | cons y ys ih =>
    rw [firstNonzero] at h
    by_cases hy : y = 0
    · rw [if_pos hy] at h
      subst hy
      rw [List.map_cons, mul_zero, firstNonzeroPosZ]
      exact Or.inr ⟨rfl, ih h⟩
    · rw [if_neg hy] at h
      cases h
      rw [List.map_cons, firstNonzeroPosZ]
      left
      rcases lt_trichotomy x 0 with hx | hx | hx
      · rw [Int.sign_eq_neg_one_iff_neg.mpr hx]
        simpa using hx
      · exact absurd hx hy
      · rw [Int.sign_eq_one_iff_pos.mpr hx]
        simpa using hx

theorem fixRowSign_canonical (v w : List ℤ) (h : fixRowSign v = some w) :
    firstNonzeroPosZ w := by
  rw [fixRowSign] at h
  rcases Option.map_eq_some'.mp h with ⟨x, hx, rfl⟩
  exact firstNonzero_canonical v x hx

theorem fixRowSign_sqNorm (v w : List ℤ) (h : fixRowSign v = some w) :
    sqNorm w = sqNorm v := by
  rw [fixRowSign] at h
  rcases Option.map_eq_some'.mp h with ⟨x, hx, rfl⟩
  rw [sqNorm_map_mul]
  have hx0 : x ≠ 0 := firstNonzero_some_ne v x hx
  rcases lt_trichotomy x 0 with hlt | heq | hgt
  · rw [Int.sign_eq_neg_one_iff_neg.mpr hlt]; ring
  · exact absurd heq hx0
  · rw [Int.sign_eq_one_iff_pos.mpr hgt]; ring

theorem fixRowSign_length (v w : List ℤ) (h : fixRowSign v = some w) :
    w.length = v.length := by
  rw [fixRowSign] at h
  rcases Option.map_eq_some'.mp h with ⟨x, _, rfl⟩
  simp

/-! ### Pipeline invariants -/

theorem mem_keptRows (n : ℕ) (v : List ℤ) :
    v ∈ keptRows n ↔ v ∈ rawRows n ∧ sqNorm v ≠ 0 := by
  simp [keptRows, List.mem_filter]

theorem uniqueRows_sqNorm (n : ℕ) (v : List ℤ) (h : v ∈ uniqueRows n) : sqNorm v ≠ 0 :=
  ((mem_keptRows n v).mp (mem_of_mem_dedupBy _ _ _ h)).2

theorem candidate_rows_eq_some (n : ℕ) :
    ∃ l, mapOption fixRowSign (uniqueRows n) = some l :=
  mapOption_isSome _ _ (fun v hv => (fixRowSign_isSome_iff v).mpr
    ((sqNorm_ne_zero_iff v).mp (uniqueRows_sqNorm n v hv)))

theorem candidate_rows_isSome (n : ℕ) : (candidate_rows n).isSome = true := by
  rcases candidate_rows_eq_some n with ⟨l, hl⟩
  rw [candidate_rows, fix_row_signs, hl]
  rfl

theorem candidateReprs_eq_dedup (n : ℕ) :
    ∃ l, mapOption fixRowSign (uniqueRows n) = some l ∧
      candidateReprs n = dedupBy sameRayB l := by
  rcases candidate_rows_eq_some n with ⟨l, hl⟩
  refine ⟨l, hl, ?_⟩
  rw [candidateReprs, candidate_rows, fix_row_signs, hl]
  rfl

theorem mem_candidateReprs (n : ℕ) (w : List ℤ) (h : w ∈ candidateReprs n) :
    ∃ v ∈ uniqueRows n, fixRowSign v = some w := by
  rcases candidateReprs_eq_dedup n with ⟨l, hl, hR⟩
  rw [hR] at h
  exact mapOption_mem _ _ l hl w (mem_of_mem_dedupBy _ _ _ h)

theorem candidateReprs_sqNorm (n : ℕ) (w : List ℤ) (h : w ∈ candidateReprs n) :
    sqNorm w ≠ 0 := by
  rcases mem_candidateReprs n w h with ⟨v, hv, hfix⟩
  rw [fixRowSign_sqNorm v w hfix]
  exact uniqueRows_sqNorm n v hv

theorem candidateReprs_canonical (n : ℕ) (w : List ℤ) (h : w ∈ candidateReprs n) :
    firstNonzeroPosZ w := by
  rcases mem_candidateReprs n w h with ⟨v, _, hfix⟩
  exact fixRowSign_canonical v w hfix

theorem candidateReprs_pairwise (n : ℕ) :
    (candidateReprs n).Pairwise (fun a b => sameRayB a b = false) := by
  rcases candidateReprs_eq_dedup n with ⟨l, _, hR⟩
  rw [hR]
  exact dedupBy_pairwise sameRayB l

theorem linComb_length (n : ℕ) (cs : List ℤ) (vs : List (List ℤ))
    (h : ∀ v ∈ vs, v.length = n) : (linComb n cs vs).length = n := by
  induction cs generalizing vs with
  | nil => cases vs <;> simp [linComb]
  | cons c cs ih =>
    cases vs with
    | nil => simp [linComb]
    | cons v vs =>
      rw [linComb, vecAdd, List.length_zipWith, List.length_map,
        h v (List.mem_cons_self v vs), ih vs (fun u hu => h u (List.mem_cons_of_mem v hu))]
      simp

theorem rawRows_length (n : ℕ) (v : List ℤ) (h : v ∈ rawRows n) : v.length = n := by
  rcases List.mem_map.mp h with ⟨sel, _, rfl⟩
  exact linComb_length n sel (signVectors n) (fun u hu => ((mem_signVectors n u).mp hu).1)

theorem candidateReprs_length (n : ℕ) (w : List ℤ) (h : w ∈ candidateReprs n) :
    w.length = n := by
  rcases mem_candidateReprs n w h with ⟨v, hv, hfix⟩
  rw [fixRowSign_length v w hfix]
  exact rawRows_length n v ((mem_keptRows n v).mp (mem_of_mem_dedupBy _ _ _ hv)).1

/-! ### The real interpretation and the bridge lemma -/

theorem sqNorm_cast_pos (v : List ℤ) (hv : sqNorm v ≠ 0) : (0 : ℝ) < ((sqNorm v : ℝ)) := by
  have h := sqNorm_nonneg v
  have h' : 0 < sqNorm v := lt_of_le_of_ne h (Ne.symm hv)
  exact_mod_cast h'

theorem sqrtNorm_pos (v : List ℤ) (hv : sqNorm v ≠ 0) : 0 < Real.sqrt ((sqNorm v : ℝ)) :=
  Real.sqrt_pos.mpr (sqNorm_cast_pos v hv)

theorem sqrtNorm_mul_self (v : List ℤ) :
    Real.sqrt ((sqNorm v : ℝ)) * Real.sqrt ((sqNorm v : ℝ)) = ((sqNorm v : ℝ)) :=
  Real.mul_self_sqrt (by exact_mod_cast sqNorm_nonneg v)

theorem sameRay_scaledEq (v w : List ℤ) (hl : v.length = w.length)
    (hpos : 0 < dotF v w) (hsq : dotF v w * dotF v w = sqNorm v * sqNorm w) :
    v.map (fun x => sqNorm w * x) = w.map (fun x => dotF v w * x) := by
  have hlp : (v.map (fun x => sqNorm w * x)).length = (w.map (fun x => dotF v w * x)).length := by
    simp [hl]
  refine vecSub_eq_zero _ _ hlp ((sqNorm_eq_zero_iff _).mp ?_)
  set p := v.map (fun x => sqNorm w * x) with hp
  set q := w.map (fun x => dotF v w * x) with hq
  have hpp : dotF p p = sqNorm w * (sqNorm w * sqNorm v) := by
    rw [hp, dotF_map_mul_left, dotF_map_mul_right]
    rfl
  have hpq : dotF p q = sqNorm w * (dotF v w * dotF v w) := by
    rw [hp, hq, dotF_map_mul_left, dotF_map_mul_right]
  have hqp : dotF q p = sqNorm w * (dotF v w * dotF v w) := by
    rw [dotF_comm, hpq]
  have hqq : dotF q q = dotF v w * (dotF v w * sqNorm w) := by
    rw [hq, dotF_map_mul_left, dotF_map_mul_right]
    rfl
  show sqNorm (vecSub p q) = 0
  rw [sqNorm, dotF_vecSub_left p q _ hlp, dotF_comm p (vecSub p q),
    dotF_vecSub_left p q p hlp, dotF_comm q (vecSub p q), dotF_vecSub_left p q q hlp,
    hpp, hpq, hqp, hqq]
  linear_combination (-(sqNorm w)) * hsq

theorem map_div_eq_of_key (v w : List ℤ) (s d : ℤ) (a b : ℝ)
    (e : v.map (fun x => s * x) = w.map (fun x => d * x))
    (key : ∀ x y : ℤ, s * x = d * y → (x : ℝ) / a = (y : ℝ) / b) :
    v.map (fun x : ℤ => (x : ℝ) / a) = w.map (fun x : ℤ => (x : ℝ) / b) := by
  induction v generalizing w with
  | nil =>
    cases w with
    | nil => rfl
    | cons y w => simp at e
  | cons x v ih =>
    cases w with
    | nil => simp at e
    | cons y w =>
      simp only [List.map_cons, List.cons.injEq] at e ⊢
      exact ⟨key x y e.1, ih w e.2⟩

theorem interpRow_eq_of_sameRay (v w : List ℤ) (hv : sqNorm v ≠ 0) (hw : sqNorm w ≠ 0)
    (hl : v.length = w.length) (hray : sameRayB v w = true) :
    interpRow v = interpRow w := by
  rw [sameRayB, Bool.and_eq_true, decide_eq_true_eq, decide_eq_true_eq] at hray
  obtain ⟨hpos, hsq⟩ := hray
  have e := sameRay_scaledEq v w hl hpos hsq
  rw [interpRow, interpRow]
  set Nv := Real.sqrt ((sqNorm v : ℝ)) with hNv
  set Nw := Real.sqrt ((sqNorm w : ℝ)) with hNw
  have hNvpos : 0 < Nv := sqrtNorm_pos v hv
  have hNwpos : 0 < Nw := sqrtNorm_pos w hw
  have hNv2 : ((sqNorm v : ℝ)) = Nv * Nv := (sqrtNorm_mul_self v).symm
  have hNw2 : ((sqNorm w : ℝ)) = Nw * Nw := (sqrtNorm_mul_self w).symm
  have hdR : ((dotF v w : ℤ) : ℝ) = Nv * Nw := by
    have h2 : ((dotF v w : ℤ) : ℝ) * ((dotF v w : ℤ) : ℝ) = (Nv * Nw) * (Nv * Nw) := by
      have hc : ((dotF v w : ℤ) : ℝ) * ((dotF v w : ℤ) : ℝ)
          = ((sqNorm v : ℝ)) * ((sqNorm w : ℝ)) := by
        have := congrArg (fun z : ℤ => (z : ℝ)) hsq
        push_cast at this
        exact this
      rw [hc, hNv2, hNw2]; ring
    rcases mul_self_eq_mul_self_iff.mp h2 with h | h
    · exact h
    · exfalso
      have hposR : (0 : ℝ) < ((dotF v w : ℤ) : ℝ) := by exact_mod_cast hpos
      nlinarith [mul_pos hNvpos hNwpos]
  have key : ∀ x y : ℤ, sqNorm w * x = dotF v w * y → (x : ℝ) / Nv = (y : ℝ) / Nw := by
    intro x y hxy
    have hc : ((sqNorm w : ℝ)) * (x : ℝ) = ((dotF v w : ℤ) : ℝ) * (y : ℝ) := by
      have := congrArg (fun z : ℤ => (z : ℝ)) hxy
      push_cast at this
      exact this
    rw [hdR, hNw2] at hc
    rw [div_eq_div_iff hNvpos.ne' hNwpos.ne']
    exact mul_left_cancel₀ hNwpos.ne' (by linear_combination hc)
  exact map_div_eq_of_key v w (sqNorm w) (dotF v w) Nv Nw e key

theorem castRow_cons (x : ℤ) (v : List ℤ) : castRow (x :: v) = (x : ℝ) :: castRow v := rfl

theorem castRow_eq_of_interp (v w : List ℤ) (a b : ℝ) (ha : a ≠ 0) (hb : b ≠ 0)
    (e : v.map (fun x : ℤ => (x : ℝ) / a) = w.map (fun x : ℤ => (x : ℝ) / b)) :
    castRow w = (castRow v).map (fun t => (b / a) * t) := by
  induction v generalizing w with
  | nil =>
    cases w with
    | nil => rfl
    | cons y w => simp at e
  | cons x v ih =>
    cases w with
    | nil => simp at e
    | cons y w =>
      simp only [List.map_cons, List.cons.injEq] at e
      rw [castRow_cons, castRow_cons, List.map_cons, List.cons.injEq]
      constructor
      · have h1 : (x : ℝ) * b = (y : ℝ) * a := (div_eq_div_iff ha hb).mp e.1
        field_simp
        linear_combination -h1
      · exact ih w e.2

theorem sameRay_of_interpRow_eq (v w : List ℤ) (hv : sqNorm v ≠ 0) (hw : sqNorm w ≠ 0)
    (he : interpRow v = interpRow w) : sameRayB v w = true := by
  rw [interpRow, interpRow] at he
  set Nv := Real.sqrt ((sqNorm v : ℝ)) with hNv
  set Nw := Real.sqrt ((sqNorm w : ℝ)) with hNw
  have hNvpos : 0 < Nv := sqrtNorm_pos v hv
  have hNwpos : 0 < Nw := sqrtNorm_pos w hw
  have hNv2 : ((sqNorm v : ℝ)) = Nv * Nv := (sqrtNorm_mul_self v).symm
  have hNw2 : ((sqNorm w : ℝ)) = Nw * Nw := (sqrtNorm_mul_self w).symm
  have hc := castRow_eq_of_interp v w Nv Nw hNvpos.ne' hNwpos.ne' he
  have hdot : dotF (castRow v) (castRow w) = (Nw / Nv) * dotF (castRow v) (castRow v) := by
    rw [hc]
    exact dotF_map_mul_right _ _ _
  rw [dotF_castRow, dotF_castRow] at hdot
  have hdR : ((dotF v w : ℤ) : ℝ) = Nv * Nw := by
    have hvv : ((dotF v v : ℤ) : ℝ) = Nv * Nv := by
      have : dotF v v = sqNorm v := rfl
      rw [this, hNv2]
    rw [hdot, hvv]
    field_simp
    ring
  have hpos : 0 < dotF v w := by
    have hposR : (0 : ℝ) < ((dotF v w : ℤ) : ℝ) := by
      rw [hdR]; exact mul_pos hNvpos hNwpos
    exact_mod_cast hposR
  have hsq : dotF v w * dotF v w = sqNorm v * sqNorm w := by
    have hR : ((dotF v w : ℤ) : ℝ) * ((dotF v w : ℤ) : ℝ)
        = ((sqNorm v : ℝ)) * ((sqNorm w : ℝ)) := by
      rw [hdR, hNv2, hNw2]; ring
    exact_mod_cast hR
  rw [sameRayB, Bool.and_eq_true, decide_eq_true_eq, decide_eq_true_eq]
  exact ⟨hpos, hsq⟩

/-- The bridge: two nonzero integer representatives of equal length denote the
same normalized real row exactly when the decidable ray test accepts them.
This justifies implementing the source's exact row equality (`torch.unique`
on normalized rows) by `sameRayB` on the representatives. -/
theorem interpRow_eq_iff_sameRayB (v w : List ℤ) (hv : sqNorm v ≠ 0) (hw : sqNorm w ≠ 0)
    (hl : v.length = w.length) :
    interpRow v = interpRow w ↔ sameRayB v w = true :=
  ⟨sameRay_of_interpRow_eq v w hv hw, interpRow_eq_of_sameRay v w hv hw hl⟩

theorem sqNorm_map_neg (v : List ℤ) : sqNorm (v.map (fun x => -x)) = sqNorm v :=
  sqNorm_negRow v

theorem interpRow_negRow (v : List ℤ) : interpRow (negRow v) = negRow (interpRow v) := by
  simp only [interpRow, negRow, sqNorm_map_neg, List.map_map]
  congr 1
  funext x
  show ((-x : ℤ) : ℝ) / Real.sqrt ((sqNorm v : ℝ)) = -((x : ℝ) / Real.sqrt ((sqNorm v : ℝ)))
  push_cast
  rw [neg_div]

theorem firstNonzeroPosR_map_div (v : List ℤ) (c : ℝ) (hc : 0 < c)
    (h : firstNonzeroPosZ v) : firstNonzeroPosR (v.map (fun x : ℤ => (x : ℝ) / c)) := by
  induction v with
  | nil => exact h.elim
  | cons x xs ih =>
    rw [firstNonzeroPosZ] at h
    rw [List.map_cons, firstNonzeroPosR]
    rcases h with hx | ⟨hx0, hrec⟩
    · exact Or.inl (div_pos (by exact_mod_cast hx) hc)
    · exact Or.inr ⟨by rw [hx0]; simp, ih hrec⟩

theorem firstNonzeroPosR_interpRow (v : List ℤ) (hv : sqNorm v ≠ 0)
    (h : firstNonzeroPosZ v) : firstNonzeroPosR (interpRow v) := by
  rw [interpRow]
  exact firstNonzeroPosR_map_div v _ (sqrtNorm_pos v hv) h

theorem not_canonical_opposite (a : List ℤ) :
    ∀ (b : List ℤ) (s t : ℤ), 0 < s → t < 0 →
      a.map (fun x => s * x) = b.map (fun x => t * x) →
      firstNonzeroPosZ a → firstNonzeroPosZ b → False := by
  induction a with
  | nil => intro b s t _ _ _ ha _; exact ha.elim
  | cons x a ih =>
    intro b s t hs ht e ha hb
    cases b with
    | nil => exact hb.elim
    | cons y b =>
      simp only [List.map_cons, List.cons.injEq] at e
      rw [firstNonzeroPosZ] at ha hb
      rcases ha with hx | ⟨hx0, ha'⟩
      · have h1 : 0 < s * x := mul_pos hs hx
        rcases hb with hy | ⟨hy0, _⟩
        · have h2 : t * y < 0 := mul_neg_of_neg_of_pos ht hy
          rw [e.1] at h1
          exact absurd h1 (not_lt.mpr h2.le)
        · rw [e.1, hy0, mul_zero] at h1
          exact absurd h1 (lt_irrefl 0)
      · have h0 : t * y = 0 := by rw [← e.1, hx0, mul_zero]
        have hy0 : y = 0 := by
          rcases mul_eq_zero.mp h0 with h | h
          · exact absurd h (ne_of_lt ht)
          · exact h
        rcases hb with hy | ⟨_, hb'⟩
        · rw [hy0] at hy; exact absurd hy (lt_irrefl 0)
        · exact ih b s t hs ht e.2 ha' hb'

/-! ### Combination enumeration -/

theorem combinations_zero {α : Type} (l : List α) : combinations 0 l = [[]] := by
  cases l <;> rfl

theorem combinations_succ_nil {α : Type} (r : ℕ) : combinations (r + 1) ([] : List α) = [] :=
  rfl

theorem combinations_succ_cons {α : Type} (r : ℕ) (x : α) (xs : List α) :
    combinations (r + 1) (x :: xs)
      = (combinations r xs).map (fun c => x :: c) ++ combinations (r + 1) xs :=
  rfl

theorem length_combinations {α : Type} (l : List α) :
    ∀ r, (combinations r l).length = l.length.choose r := by
  induction l with
  | nil =>
    intro r
    cases r with
    | zero => rfl
    | succ r => rfl
  | cons x xs ih =>
    intro r
    cases r with
    | zero => rfl
    | succ r =>
      rw [combinations_succ_cons, List.length_append, List.length_map, ih r, ih (r + 1),
        List.length_cons, Nat.choose_succ_succ]

theorem combinations_sublist {α : Type} (l : List α) :
    ∀ r c, c ∈ combinations r l → c.Sublist l ∧ c.length = r := by
  induction l with
  | nil =>
    intro r c hc
    cases r with
    | zero =>
      rw [combinations_zero, List.mem_singleton] at hc
      subst hc
      exact ⟨List.Sublist.refl [], rfl⟩
    | succ r => simp [combinations_succ_nil] at hc
  | cons x xs ih =>
    intro r c hc
    cases r with
    | zero =>
      rw [combinations_zero, List.mem_singleton] at hc
      subst hc
      exact ⟨List.nil_sublist _, rfl⟩
    | succ r =>
      rw [combinations_succ_cons, List.mem_append] at hc
      rcases hc with hc | hc
      · rcases List.mem_map.mp hc with ⟨c', hc', rfl⟩
        rcases ih r c' hc' with ⟨hs, hlen⟩
        exact ⟨hs.cons₂ x, by simp [hlen]⟩
      · rcases ih (r + 1) c hc with ⟨hs, hlen⟩
        exact ⟨hs.cons x, hlen⟩

theorem combinations_nil_of_lt {α : Type} (l : List α) :
    ∀ r, l.length < r → combinations r l = [] := by
  induction l with
  | nil =>
    intro r hr
    cases r with
    | zero => simp at hr
    | succ r => rfl
  | cons x xs ih =>
    intro r hr
    cases r with
    | zero => simp at hr
    | succ r =>
      have h1 : xs.length < r := by simpa using hr
      rw [combinations_succ_cons, ih r h1, ih (r + 1) (Nat.lt_succ_of_lt h1)]
      rfl

theorem combinations_nodup {α : Type} (l : List α) :
    l.Nodup → ∀ r, (combinations r l).Nodup := by
  induction l with
  | nil =>
    intro _ r
    cases r with
    | zero => exact List.nodup_singleton []
    | succ r => exact List.nodup_nil
  | cons x xs ih =>
    intro hl r
    have hx : x ∉ xs := (List.nodup_cons.mp hl).1
    have hxs : xs.Nodup := (List.nodup_cons.mp hl).2
    cases r with
    | zero => exact List.nodup_singleton []
    | succ r =>
      rw [combinations_succ_cons, List.nodup_append]
      refine ⟨?_, ih hxs (r + 1), ?_⟩
      · exact (ih hxs r).map (fun c₁ c₂ h => by simpa using h)
      · intro a ha hb
        rcases List.mem_map.mp ha with ⟨c, _, rfl⟩
        have hsub := (combinations_sublist xs (r + 1) (x :: c) hb).1
        exact hx (hsub.subset (List.mem_cons_self x c))

theorem combinations_range_mem (m r : ℕ) (c : List ℕ)
    (hc : c ∈ combinations r (List.range m)) :
    List.Chain' (· < ·) c ∧ c.length = r ∧ ∀ i ∈ c, i < m := by
  rcases combinations_sublist (List.range m) r c hc with ⟨hsub, hlen⟩
  have hp : List.Pairwise (· < ·) c := (List.pairwise_lt_range m).sublist hsub
  exact ⟨List.chain'_iff_pairwise.mpr hp, hlen,
    fun i hi => List.mem_range.mp (hsub.subset hi)⟩

theorem combinations_pairwise_lex (l : List ℕ) :
    List.Pairwise (· < ·) l → ∀ r, (combinations r l).Pairwise (List.Lex (· < ·)) := by
  induction l with
  | nil =>
    intro _ r
    cases r with
    | zero => exact List.pairwise_singleton _ _
    | succ r => exact List.Pairwise.nil
  | cons x xs ih =>
    intro hl r
    have hx : ∀ y ∈ xs, x < y := fun y hy => List.rel_of_pairwise_cons hl hy
    have hxs : List.Pairwise (· < ·) xs := hl.of_cons
    cases r with
    | zero => exact List.pairwise_singleton _ _
    | succ r =>
      rw [combinations_succ_cons, List.pairwise_append]
      refine ⟨?_, ih hxs (r + 1), ?_⟩
      · rw [List.pairwise_map]
        exact (ih hxs r).imp (fun h => List.Lex.cons h)
      · intro a ha b hb
        rcases List.mem_map.mp ha with ⟨c, _, rfl⟩
        rcases combinations_sublist xs (r + 1) b hb with ⟨hsubb, hlenb⟩
        cases b with
        | nil => simp at hlenb
        | cons y b' =>
          exact List.Lex.rel (hx y (hsubb.subset (List.mem_cons_self y b')))

/-! ### The running-maximum fold -/

theorem le_foldl_max {α : Type} [LinearOrder α] (L : List α) :
    ∀ b : α, b ≤ L.foldl max b := by
  induction L with
  | nil => intro b; exact le_refl b
  | cons a L ih => intro b; exact le_trans (le_max_left b a) (ih (max b a))

theorem mem_le_foldl_max {α : Type} [LinearOrder α] (L : List α) :
    ∀ (b a : α), a ∈ L → a ≤ L.foldl max b := by
  induction L with
  | nil => intro b a ha; simp at ha
  | cons x L ih =>
    intro b a ha
    rcases List.mem_cons.mp ha with rfl | ha
    · exact le_trans (le_max_right b a) (le_foldl_max L (max b a))
    · exact ih (max b x) a ha

theorem foldl_max_of_le {α : Type} [LinearOrder α] (L : List α) :
    ∀ b : α, (∀ a ∈ L, a ≤ b) → L.foldl max b = b := by
  induction L with
  | nil => intro b _; rfl
  | cons x L ih =>
    intro b h
    rw [List.foldl_cons, max_eq_left (h x (List.mem_cons_self x L))]
    exact ih b (fun a ha => h a (List.mem_cons_of_mem x ha))

theorem foldl_max_mem_or_init {α : Type} [LinearOrder α] (L : List α) :
    ∀ b : α, L.foldl max b = b ∨ L.foldl max b ∈ L := by
  induction L with
  | nil => intro b; exact Or.inl rfl
  | cons x L ih =>
    intro b
    rw [List.foldl_cons]
    rcases ih (max b x) with h | h
    · rcases max_choice b x with he | he
      · exact Or.inl (by rw [h, he])
      · exact Or.inr (by rw [h, he]; exact List.mem_cons_self x L)
    · exact Or.inr (List.mem_cons_of_mem x h)

theorem foldl_max_attained {α : Type} [LinearOrder α] (L : List α) (b : α)
    (h : ∃ a ∈ L, b < a) : L.foldl max b ∈ L := by
  rcases foldl_max_mem_or_init L b with he | he
  · rcases h with ⟨a, ha, hba⟩
    have hle := mem_le_foldl_max L b a ha
    rw [he] at hle
    exact absurd hle (not_le.mpr hba)
  · exact he

theorem argStep_fst {α β γ : Type} [LinearOrder α] (f : β → α) (g : β → γ)
    (st : α × Option γ) (c : β) : (argStep f g st c).1 = max st.1 (f c) := by
  rw [argStep]
  by_cases h : st.1 < f c
  · rw [if_pos h]; exact (max_eq_right h.le).symm
  · rw [if_neg h]; exact (max_eq_left (not_lt.mp h)).symm

theorem argFold_fst {α β γ : Type} [LinearOrder α] (f : β → α) (g : β → γ) (L : List β) :
    ∀ st : α × Option γ, (L.foldl (argStep f g) st).1 = (L.map f).foldl max st.1 := by
  induction L with
  | nil => intro st; rfl
  | cons c L ih =>
    intro st
    rw [List.foldl_cons, List.map_cons, List.foldl_cons, ih, argStep_fst]

theorem argFold_const {α β γ : Type} [LinearOrder α] (f : β → α) (g : β → γ) (L : List β) :
    ∀ st : α × Option γ, (∀ c ∈ L, f c ≤ st.1) → L.foldl (argStep f g) st = st := by
  induction L with
  | nil => intro st _; rfl
  | cons c L ih =>
    intro st h
    rw [List.foldl_cons, argStep, if_neg (not_lt.mpr (h c (List.mem_cons_self c L)))]
    exact ih st (fun c' hc' => h c' (List.mem_cons_of_mem c hc'))

theorem argFold_snd {α β γ : Type} [LinearOrder α] [DecidableEq α]
    (f : β → α) (g : β → γ) (L : List β) :
    ∀ st : α × Option γ, (∃ c ∈ L, st.1 < f c) →
      (L.foldl (argStep f g) st).2
        = (L.find? (fun c => decide (f c = (L.map f).foldl max st.1))).map g := by
  induction L with
  | nil => rintro st ⟨c, hc, -⟩; simp at hc
  | cons c L ih =>
    intro st hex
    rw [List.foldl_cons, List.map_cons, List.foldl_cons]
    by_cases hlt : st.1 < f c
    · have hseed : (argStep f g st c).1 = f c := by
        rw [argStep_fst, max_eq_right hlt.le]
      by_cases hbig : ∃ c' ∈ L, f c < f c'
      · rcases hbig with ⟨c', hc', hgt⟩
        have hex' : ∃ d ∈ L, (argStep f g st c).1 < f d := ⟨c', hc', by rw [hseed]; exact hgt⟩
        rw [ih (argStep f g st c) hex', hseed]
        have hM : max st.1 (f c) = f c := max_eq_right hlt.le
        rw [hM]
        have hcM : (decide (f c = (L.map f).foldl max (f c))) = false := by
          rw [decide_eq_false_iff_not]
          intro hEq
          have hle : f c' ≤ (L.map f).foldl max (f c) :=
            mem_le_foldl_max _ _ _ (List.mem_map_of_mem f hc')
          rw [← hEq] at hle
          exact absurd (lt_of_lt_of_le hgt hle) (lt_irrefl (f c))
        rw [List.find?_cons, hcM]
      · push_neg at hbig
        have hconst : L.foldl (argStep f g) (argStep f g st c) = argStep f g st c := by
          refine argFold_const f g L (argStep f g st c) ?_
          intro c' hc'
          rw [hseed]
          exact hbig c' hc'
        rw [hconst]
        have hM : (L.map f).foldl max (max st.1 (f c)) = f c := by
          rw [max_eq_right hlt.le]
          refine foldl_max_of_le _ _ ?_
          intro a ha
          rcases List.mem_map.mp ha with ⟨c', hc', rfl⟩
          exact hbig c' hc'
        rw [hM]
        have hceq : (decide (f c = f c)) = true := by rw [decide_eq_true_eq]
        rw [List.find?_cons, hceq, argStep, if_pos hlt]
        rfl
    · have hstep : argStep f g st c = st := by rw [argStep, if_neg hlt]
      rcases hex with ⟨c', hc', hlt'⟩
      have hc'L : c' ∈ L := by
        rcases List.mem_cons.mp hc' with rfl | h
        · exact absurd hlt' hlt
        · exact h
      rw [hstep, ih st ⟨c', hc'L, hlt'⟩]
      have hM : max st.1 (f c) = st.1 := max_eq_left (not_lt.mp hlt)
      rw [hM]
      have hcM : (decide (f c = (L.map f).foldl max st.1)) = false := by
        rw [decide_eq_false_iff_not]
        intro hEq
        have hle : f c' ≤ (L.map f).foldl max st.1 :=
          mem_le_foldl_max _ _ _ (List.mem_map_of_mem f hc'L)
        rw [← hEq] at hle
        exact absurd (lt_of_lt_of_le hlt' hle) (not_lt.mpr (not_lt.mp hlt))
      rw [List.find?_cons, hcM]

/-! ### Invariance of beta -/

theorem foldl_max_perm {α : Type} [LinearOrder α] {l₁ l₂ : List α} (h : l₁.Perm l₂) :
    ∀ b : α, l₁.foldl max b = l₂.foldl max b := by
  induction h with
  | nil => intro b; rfl
  | cons x h ih =>
    intro b
    rw [List.foldl_cons, List.foldl_cons]
    exact ih (max b x)
  | swap x y l =>
    intro b
    rw [List.foldl_cons, List.foldl_cons, List.foldl_cons, List.foldl_cons, sup_right_comm]
  | trans h₁ h₂ ih₁ ih₂ =>
    intro b
    rw [ih₁ b, ih₂ b]

theorem colMax_perm {α : Type} [LinearOrderedField α] {A A' : List (List α)}
    (h : A.Perm A') (c : List α) : colMax A c = colMax A' c := by
  rw [colMax, colMax]
  exact foldl_max_perm (h.map _) 0

theorem beta_perm {α : Type} [LinearOrderedField α] {A A' : List (List α)}
    (h : A.Perm A') (bvs : List (List α)) : beta A bvs = beta A' bvs := by
  rw [beta, beta, show colMax A = colMax A' from funext (fun c => colMax_perm h c)]

theorem dotF_negRow_left {α : Type} [CommRing α] (v w : List α) :
    dotF (negRow v) w = -(dotF v w) := by
  have h : negRow v = v.map (fun x => (-1) * x) := by simp [negRow]
  rw [h, dotF_map_mul_left]
  ring

theorem colMax_set_neg {α : Type} [LinearOrderedField α] (A : List (List α)) (i : ℕ)
    (hi : i < A.length) (c : List α) :
    colMax (A.set i (negRow (A.getD i []))) c = colMax A c := by
  rw [colMax, colMax, List.map_set]
  have hf : |dotF (negRow (A.getD i [])) c| = |dotF (A.getD i []) c| := by
    rw [dotF_negRow_left, abs_neg]
  rw [hf]
  congr 1
  apply List.ext_getElem
  · simp
  · intro j h1 h2
    rw [List.getElem_set]
    by_cases hij : i = j
    · subst hij
      rw [if_pos rfl, List.getElem_map, List.getD_eq_getElem A [] hi]
    · rw [if_neg hij]

theorem beta_set_neg {α : Type} [LinearOrderedField α] (A bvs : List (List α)) (i : ℕ)
    (hi : i < A.length) :
    beta (A.set i (negRow (A.getD i []))) bvs = beta A bvs := by
  rw [beta, beta,
    show colMax (A.set i (negRow (A.getD i []))) = colMax A
      from funext (fun c => colMax_set_neg A i hi c)]

/-! ### The evaluation half-set -/

theorem signVectors_succ (n : ℕ) :
    signVectors (n + 1)
      = (signVectors n).map (fun v => -1 :: v) ++ (signVectors n).map (fun v => 1 :: v) := by
  show prodRepeat [-1, 1] (n + 1) = _
  rw [prodRepeat, concatMap, concatMap, concatMap, List.append_nil]
  rfl

theorem evalVectors_succ (n : ℕ) :
    evalVectors (n + 1) = (signVectors n).map (fun v => -1 :: v) := by
  rw [evalVectors, signVectors_succ]
  have hl : ((signVectors n).map (fun v => (-1 : ℤ) :: v)).length = 2 ^ (n + 1 - 1) := by
    rw [List.length_map, length_signVectors]
    simp
  exact List.take_left' hl

theorem negRow_mem_signVectors (n : ℕ) (v : List ℤ) (h : v ∈ signVectors n) :
    negRow v ∈ signVectors n := by
  rw [mem_signVectors] at h ⊢
  refine ⟨by simp [negRow, h.1], ?_⟩
  intro x hx
  rcases List.mem_map.mp hx with ⟨y, hy, rfl⟩
  rcases h.2 y hy with rfl | rfl
  · right; norm_num
  · left; norm_num

theorem mem_evalVectors_iff_head (n : ℕ) (v : List ℤ) (hv : v ∈ signVectors (n + 1)) :
    v ∈ evalVectors (n + 1) ↔ v.headD 0 = -1 := by
  rw [evalVectors_succ]
  rw [signVectors_succ, List.mem_append] at hv
  constructor
  · intro hmem
    rcases List.mem_map.mp hmem with ⟨w, _, rfl⟩
    rfl
  · intro hhead
    rcases hv with h | h
    · exact h
    · rcases List.mem_map.mp h with ⟨w, _, rfl⟩
      exact absurd hhead (by norm_num)

/-! ### The empty search -/

theorem searchLoop_of_length_lt {α : Type} [LinearOrderedField α] (R bvs : List (List α))
    (r : ℕ) (h : R.length < r) : searchLoop R bvs r = (0, none) := by
  rw [searchLoop, combinations_nil_of_lt _ _ (by simpa using h)]
  rfl

/-! ### Claim theorems -/

/-- Claim C1: for every candidate row set `R` and every `r` with `1 ≤ r ≤ |R|`
(and any combination whose beta value exceeds the initial `beta_max = 0`, which
always holds for the unit rows the program searches over), the loop returns a
`beta_max` equal to the maximum of beta over all `r`-combinations of rows of
`R`, and the returned best matrix is induced by the earliest combination in
the enumeration attaining that maximum; the enumeration is sorted in strict
lexicographic order, and the running maximum updates only on strict
greater-than, so ties never replace the earlier maximizer. -/
theorem search_loop_max_first_argmax {α : Type} [LinearOrderedField α] [DecidableEq α]
    (R bvs : List (List α)) (r : ℕ) (h1 : 1 ≤ r) (h2 : r ≤ R.length)
    (hpos : ∃ c ∈ combinations r (List.range R.length), 0 < betaOf R bvs c) :
    (searchLoop R bvs r).1 = betaMaxSpec R bvs r ∧
    (∀ c ∈ combinations r (List.range R.length), betaOf R bvs c ≤ betaMaxSpec R bvs r) ∧
    (∃ c ∈ combinations r (List.range R.length), betaOf R bvs c = betaMaxSpec R bvs r) ∧
    (searchLoop R bvs r).2 =
      ((combinations r (List.range R.length)).find?
        (fun c => decide (betaOf R bvs c = betaMaxSpec R bvs r))).map (selectRows R) ∧
    (combinations r (List.range R.length)).Pairwise (List.Lex (· < ·)) := by
  have hstep : searchStep R bvs = argStep (betaOf R bvs) (selectRows R) := rfl
  refine ⟨?_, ?_, ?_, ?_, ?_⟩
  · rw [searchLoop, hstep, argFold_fst, betaMaxSpec]
  · intro c hc
    rw [betaMaxSpec]
    exact mem_le_foldl_max _ 0 _ (List.mem_map_of_mem _ hc)
  · rcases hpos with ⟨c0, hc0, hpos0⟩
    have hmem : betaMaxSpec R bvs r
        ∈ (combinations r (List.range R.length)).map (betaOf R bvs) := by
      rw [betaMaxSpec]
      exact foldl_max_attained _ 0 ⟨betaOf R bvs c0, List.mem_map_of_mem _ hc0, hpos0⟩
    rcases List.mem_map.mp hmem with ⟨c, hc, hEq⟩
    exact ⟨c, hc, hEq⟩
  · rw [searchLoop, hstep, argFold_snd (betaOf R bvs) (selectRows R) _ (0, none) hpos]
    rfl
  · exact combinations_pairwise_lex _ (List.pairwise_lt_range _) r

/-- Witness for C1 at the concrete input `R = [[1]]`, `bvs = [[1]]`, `r = 1`
over `ℚ`, where the single combination `[0]` has beta value `1 > 0`. -/
theorem search_loop_max_first_argmax_witness :
    (1 ≤ 1) ∧ (1 ≤ ([[(1 : ℚ)]] : List (List ℚ)).length) ∧
    (∃ c ∈ combinations 1 (List.range ([[(1 : ℚ)]] : List (List ℚ)).length),
      0 < betaOf [[(1 : ℚ)]] [[1]] c) ∧
    (searchLoop [[(1 : ℚ)]] [[1]] 1).1 = betaMaxSpec [[(1 : ℚ)]] [[1]] 1 :=
  ⟨le_refl 1, by decide, ⟨[0], by decide, by norm_num [betaOf, beta, selectRows, colMax, dotF]⟩,
    (search_loop_max_first_argmax [[(1 : ℚ)]] [[1]] 1 (le_refl 1) (by decide)
      ⟨[0], by decide, by norm_num [betaOf, beta, selectRows, colMax, dotF]⟩).1⟩

/-- Claim C2: for every candidate set size `m` and every `r ≤ m` the engine
enumerates exactly `C(m, r)` combinations, each a strictly increasing
`r`-tuple of indices below `m`, with no combination repeated; concretely for
`n = 3` the candidate set has `|R| = 25` rows and `r = 3` yields exactly
`2300` combinations. -/
theorem combinations_enumeration_count (m r : ℕ) (hr : r ≤ m) :
    (combinations r (List.range m)).length = m.choose r ∧
    (∀ c ∈ combinations r (List.range m),
      List.Chain' (· < ·) c ∧ c.length = r ∧ ∀ i ∈ c, i < m) ∧
    (combinations r (List.range m)).Nodup ∧
    (candidateRowsR 3).length = 25 ∧
    (combinations 3 (List.range (candidateRowsR 3).length)).length = 2300 := by
  have h25 : (candidateReprs 3).length = 25 := by decide
  refine ⟨?_, ?_, ?_, ?_, ?_⟩
  · rw [length_combinations, List.length_range]
  · exact fun c hc => combinations_range_mem m r c hc
  · exact combinations_nodup _ (List.nodup_range m) r
  · rw [candidateRowsR, List.length_map, h25]
  · rw [candidateRowsR, List.length_map, h25, length_combinations, List.length_range]
    decide

/-- Witness for C2 at the concrete size `m = 25`, `r = 3` of the `n = 3` run. -/
theorem combinations_enumeration_count_witness :
    (3 ≤ 25) ∧ (combinations 3 (List.range 25)).length = Nat.choose 25 3 :=
  ⟨by decide, (combinations_enumeration_count 25 3 (by decide)).1⟩

/-- Claim C3: for every `n ≥ 1`, every row of `R` has Euclidean norm `1`
(in the exact-arithmetic model the squared norm is exactly `1`; the float
tolerance of the claim idealizes to equality): each raw row surviving the
zero-norm filter is divided by its own norm, and sign-canonicalization
multiplies rows by `±1`, preserving the norm. -/
theorem candidate_rows_unit_norm (n : ℕ) (hn : 1 ≤ n) :
    ∀ w ∈ candidateRowsR n, dotF w w = (1 : ℝ) := by
  intro w hw
  rcases List.mem_map.mp hw with ⟨v, hv, rfl⟩
  have hnz := candidateReprs_sqNorm n v hv
  have hNpos := sqrtNorm_pos v hnz
  have hN2 := sqrtNorm_mul_self v
  rw [interpRow]
  have hsplit : v.map (fun x : ℤ => (x : ℝ) / Real.sqrt ((sqNorm v : ℝ)))
      = (castRow v).map (fun t => (1 / Real.sqrt ((sqNorm v : ℝ))) * t) := by
    rw [castRow, List.map_map]
    congr 1
    funext x
    show (x : ℝ) / Real.sqrt ((sqNorm v : ℝ)) = 1 / Real.sqrt ((sqNorm v : ℝ)) * (x : ℝ)
    ring
  rw [hsplit, dotF_map_mul_left, dotF_map_mul_right, dotF_castRow]
  have hzq : ((dotF v v : ℤ) : ℝ) = ((sqNorm v : ℝ)) := rfl
  rw [hzq]
  field_simp

/-- Witness for C3 at `n = 1`, whose single candidate row is `interpRow [1]`. -/
theorem candidate_rows_unit_norm_witness :
    (1 ≤ 1) ∧ dotF (interpRow [1]) (interpRow [1]) = (1 : ℝ) :=
  ⟨le_refl 1, candidate_rows_unit_norm 1 (le_refl 1) (interpRow [1])
    (show interpRow [1] ∈ candidateRowsR 1 from List.mem_singleton_self _)⟩

/-- Claim C4: for every `n`, no two distinct rows of `R` are exactly equal, no
two are exact negatives of each other, and every row of `R` is
sign-canonical (its first nonzero coordinate is positive). -/
theorem candidate_rows_sign_canonical_distinct (n i j : ℕ) (hij : i < j)
    (hj : j < (candidateRowsR n).length) :
    (candidateRowsR n).getD i [] ≠ (candidateRowsR n).getD j [] ∧
    (candidateRowsR n).getD i [] ≠ negRow ((candidateRowsR n).getD j []) ∧
    (∀ w ∈ candidateRowsR n, firstNonzeroPosR w) := by
  have hjR : j < (candidateReprs n).length := by
    rw [candidateRowsR, List.length_map] at hj
    exact hj
  have hiR : i < (candidateReprs n).length := lt_trans hij hjR
  have hjm : j < (candidateRowsR n).length := hj
  have him : i < (candidateRowsR n).length := lt_trans hij hjm
  have hgi : (candidateRowsR n).getD i [] = interpRow ((candidateReprs n).get ⟨i, hiR⟩) := by
    rw [List.getD_eq_getElem _ [] him]
    simp only [candidateRowsR, List.getElem_map, List.get_eq_getElem]
  have hgj : (candidateRowsR n).getD j [] = interpRow ((candidateReprs n).get ⟨j, hjR⟩) := by
    rw [List.getD_eq_getElem _ [] hjm]
    simp only [candidateRowsR, List.getElem_map, List.get_eq_getElem]
  set vi := (candidateReprs n).get ⟨i, hiR⟩ with hvi
  set vj := (candidateReprs n).get ⟨j, hjR⟩ with hvj
  have hmi : vi ∈ candidateReprs n := List.get_mem _ _ _
  have hmj : vj ∈ candidateReprs n := List.get_mem _ _ _
  have hni := candidateReprs_sqNorm n vi hmi
  have hnj := candidateReprs_sqNorm n vj hmj
  have hci := candidateReprs_canonical n vi hmi
  have hcj := candidateReprs_canonical n vj hmj
  have hli := candidateReprs_length n vi hmi
  have hlj := candidateReprs_length n vj hmj
  have hray : sameRayB vi vj = false :=
    List.pairwise_iff_get.mp (candidateReprs_pairwise n) ⟨i, hiR⟩ ⟨j, hjR⟩ hij
  refine ⟨?_, ?_, ?_⟩
  · rw [hgi, hgj]
    intro hEq
    have := sameRay_of_interpRow_eq vi vj hni hnj hEq
    rw [hray] at this
    cases this
  · rw [hgi, hgj]
    intro hEq
    rw [← interpRow_negRow] at hEq
    have hnnj : sqNorm (negRow vj) ≠ 0 := by rw [sqNorm_negRow]; exact hnj
    have hray2 := sameRay_of_interpRow_eq vi (negRow vj) hni hnnj hEq
    rw [sameRayB, Bool.and_eq_true, decide_eq_true_eq, decide_eq_true_eq] at hray2
    obtain ⟨hpos2, hsq2⟩ := hray2
    have hlen2 : vi.length = (negRow vj).length := by
      rw [negRow, List.length_map, hli, hlj]
    have e := sameRay_scaledEq vi (negRow vj) hlen2 hpos2 hsq2
    rw [sqNorm_negRow] at e
    have e' : vi.map (fun x => sqNorm vj * x)
        = vj.map (fun x => (-(dotF vi (negRow vj))) * x) := by
      rw [e, negRow, List.map_map]
      congr 1
      funext x
      show dotF vi (negRow vj) * (-x) = -(dotF vi (negRow vj)) * x
      ring
    have hspos : 0 < sqNorm vj := lt_of_le_of_ne (sqNorm_nonneg vj) (Ne.symm hnj)
    exact not_canonical_opposite vi vj (sqNorm vj) (-(dotF vi (negRow vj)))
      hspos (neg_lt_zero.mpr hpos2) e' hci hcj
  · intro w hw
    rcases List.mem_map.mp hw with ⟨v, hv, rfl⟩
    exact firstNonzeroPosR_interpRow v (candidateReprs_sqNorm n v hv)
      (candidateReprs_canonical n v hv)

/-- Witness for C4 at `n = 2`, rows `0` and `1` of the four-row candidate set. -/
theorem candidate_rows_sign_canonical_distinct_witness :
    (0 < 1) ∧ (1 < (candidateRowsR 2).length) ∧
    (candidateRowsR 2).getD 0 [] ≠ (candidateRowsR 2).getD 1 [] :=
  ⟨Nat.zero_lt_one,
    by rw [candidateRowsR, List.length_map]; decide,
    (candidate_rows_sign_canonical_distinct 2 0 1 Nat.zero_lt_one
      (by rw [candidateRowsR, List.length_map]; decide)).1⟩

/-- Claim C5: `beta` is invariant under permuting the rows of `A` and under
negating any single row of `A` (it takes the maximum over rows of absolute
inner products, then the mean over evaluation columns). -/
theorem beta_row_perm_neg_invariant {α : Type} [LinearOrderedField α]
    (A A' bvs : List (List α)) (i : ℕ) (hperm : A.Perm A') (hi : i < A.length) :
    beta A' bvs = beta A bvs ∧ beta (A.set i (negRow (A.getD i []))) bvs = beta A bvs :=
  ⟨(beta_perm hperm bvs).symm, beta_set_neg A bvs i hi⟩

/-- Witness for C5 at a concrete 2×2 rational matrix, its row swap, and the
negation of its first row. -/
theorem beta_row_perm_neg_invariant_witness :
    (([[(1 : ℚ), 0], [0, 1]] : List (List ℚ)).Perm [[0, 1], [1, 0]]) ∧ (0 < 2) ∧
    beta ([[(0 : ℚ), 1], [1, 0]]) [[1, 1]] = beta [[(1 : ℚ), 0], [0, 1]] [[1, 1]] :=
  ⟨by decide, by decide,
    (beta_row_perm_neg_invariant [[(1 : ℚ), 0], [0, 1]] [[0, 1], [1, 0]] [[1, 1]] 0
      (by decide) (by decide)).1⟩

/-- Claim C6: for every `n`, a selector whose selected sign vectors sum to a
zero-norm row is excluded from the kept rows (the all-NaN filter of the
source, which in exact arithmetic is exactly the zero-norm test), so every
row that reaches `R` — and hence the search — has nonzero norm and its
normalization is an ordinary real row, never a NaN. -/
theorem zero_norm_rows_filtered (n : ℕ) :
    (∀ sel ∈ binaryVectors (2 ^ n),
      (linComb n sel (signVectors n) ∈ keptRows n
        ↔ sqNorm (linComb n sel (signVectors n)) ≠ 0)) ∧
    (∀ v ∈ candidateReprs n, sqNorm v ≠ 0) := by
  constructor
  · intro sel hsel
    rw [mem_keptRows]
    constructor
    · exact fun h => h.2
    · intro h
      exact ⟨List.mem_map_of_mem _ hsel, h⟩
  · exact fun v hv => candidateReprs_sqNorm n v hv

/-- Witness for C6 at `n = 1` and the selector `[1, 1]`, whose two selected
sign vectors `[-1]` and `[1]` cancel to the zero row. -/
theorem zero_norm_rows_filtered_witness :
    ([1, 1] ∈ binaryVectors (2 ^ 1)) ∧
    (linComb 1 [1, 1] (signVectors 1) ∈ keptRows 1
      ↔ sqNorm (linComb 1 [1, 1] (signVectors 1)) ≠ 0) :=
  ⟨by decide, (zero_norm_rows_filtered 1).1 [1, 1] (by decide)⟩

/-- Claim C7: when `r > |R|` the combination space is empty and the search
completes without raising, returning the initial state `beta_max = 0` and no
best matrix. -/
theorem search_empty_when_r_gt_size {α : Type} [LinearOrderedField α]
    (R bvs : List (List α)) (r : ℕ) (h : R.length < r) :
    combinations r (List.range R.length) = [] ∧ searchLoop R bvs r = (0, none) :=
  ⟨combinations_nil_of_lt _ _ (by simpa using h), searchLoop_of_length_lt R bvs r h⟩

/-- Witness for C7 at `R = [[1]]` over `ℚ` and `r = 2`. -/
theorem search_empty_when_r_gt_size_witness :
    (([[(1 : ℚ)]] : List (List ℚ)).length < 2) ∧
    searchLoop [[(1 : ℚ)]] ([] : List (List ℚ)) 2 = (0, none) :=
  ⟨by decide, (search_empty_when_r_gt_size [[(1 : ℚ)]] [] 2 (by decide)).2⟩

/-- Claim C8 is false of the code: the program performs no input validation at
all.  At the concrete invalid input `n = 1, r = 2` (so `r > |R| = 1`, a caller
error by the claim), the run does not reject the call — the model is a total
function with no failure path — and instead silently returns the zero result
`(beta_max = 0, no matrix)`, exactly the outcome the claim says must not
happen. -/
theorem runSearch_silent_zero_counterexample : runSearch 1 2 = (0, none) := by
  rw [runSearch]
  apply searchLoop_of_length_lt
  rw [candidateRowsR, List.length_map]
  decide

/-- Amended claim C8: the implementation performs no validation of `(n, r)`;
whenever `r > |R|` the search silently returns the zero result
`(beta_max = 0, no matrix)` instead of rejecting the call. -/
theorem no_validation_silent_zero (n r : ℕ) (h : (candidateRowsR n).length < r) :
    runSearch n r = (0, none) := by
  rw [runSearch]
  exact searchLoop_of_length_lt _ _ _ h

/-- Witness for the amended C8 at `n = 1`, `r = 2`. -/
theorem no_validation_silent_zero_witness :
    ((candidateRowsR 1).length < 2) ∧ runSearch 1 2 = (0, none) :=
  ⟨by rw [candidateRowsR, List.length_map]; decide,
    no_validation_silent_zero 1 2 (by rw [candidateRowsR, List.length_map]; decide)⟩

/-- Claim C9: for every `n ≥ 1` the evaluation matrix — the first `2^(n-1)`
columns of the lexicographic `±1` enumeration — consists exactly of the sign
vectors whose first coordinate is `-1`, and contains exactly one
representative of each antipodal pair `{v, -v}` of sign vectors. -/
theorem evalVectors_half_set (n : ℕ) (hn : 1 ≤ n) :
    (evalVectors n).length = 2 ^ (n - 1) ∧
    (∀ v ∈ evalVectors n, v ∈ signVectors n) ∧
    (∀ v ∈ signVectors n,
      negRow v ∈ signVectors n ∧
      (v ∈ evalVectors n ↔ v.headD 0 = -1) ∧
      (v ∈ evalVectors n ↔ negRow v ∉ evalVectors n)) := by
  obtain ⟨m, rfl⟩ : ∃ m, n = m + 1 := ⟨n - 1, (Nat.succ_pred_eq_of_pos hn).symm⟩
  refine ⟨?_, ?_, ?_⟩
  · rw [evalVectors, List.length_take, length_signVectors]
    exact min_eq_left (pow_le_pow_right₀ (by norm_num) (by simp))
  · intro v hv
    exact List.mem_of_mem_take hv
  · intro v hv
    have hneg := negRow_mem_signVectors _ v hv
    refine ⟨hneg, mem_evalVectors_iff_head m v hv, ?_⟩
    rw [mem_evalVectors_iff_head m v hv, mem_evalVectors_iff_head m (negRow v) hneg]
    rcases (mem_signVectors _ v).mp hv with ⟨hlen, hmem⟩
    cases v with
    | nil => simp at hlen
    | cons a w =>
      have ha := hmem a (List.mem_cons_self a w)
      have hhead : ((a :: w).headD 0) = a := rfl
      have hneghead : ((negRow (a :: w)).headD 0) = -a := rfl
      rw [hhead, hneghead]
      rcases ha with rfl | rfl
      · constructor
        · intro _; norm_num
        · intro _; rfl
      · constructor
        · intro h; exact absurd h (by norm_num)
        · intro h; exact absurd (by norm_num : (-(1 : ℤ)) = -1) h

/-- Witness for C9 at `n = 1` and the sign vector `[-1]`. -/
theorem evalVectors_half_set_witness :
    (1 ≤ 1) ∧ ([-1] ∈ signVectors 1) ∧
    (([-1] ∈ evalVectors 1) ↔ (([-1] : List ℤ).headD 0 = -1)) :=
  ⟨le_refl 1, by decide, ((evalVectors_half_set 1 (le_refl 1)).2.2 [-1] (by decide)).2.1⟩

/-- Claim C10: every row passed to `fix_row_signs` (the rows surviving the
NaN filter and the first dedup) has a nonzero coordinate, so the first-nonzero
lookup inside `fix_row_signs` never fails and `candidate_rows n` returns
normally for every `n ≥ 1`. -/
theorem fix_row_signs_total (n : ℕ) (hn : 1 ≤ n) :
    (∀ v ∈ uniqueRows n, (firstNonzero v).isSome = true) ∧
    (candidate_rows n).isSome = true :=
  ⟨fun v hv => (firstNonzero_isSome_iff v).mpr
      ((sqNorm_ne_zero_iff v).mp (uniqueRows_sqNorm n v hv)),
    candidate_rows_isSome n⟩

/-- Witness for C10 at `n = 1`. -/
theorem fix_row_signs_total_witness : (1 ≤ 1) ∧ (candidate_rows 1).isSome = true :=
  ⟨le_refl 1, (fix_row_signs_total 1 (le_refl 1)).2⟩

end BadScience
